import Mathlib

set_option autoImplicit false

/- Shallow embedding of the git-repo configuration, reference and manifest
   layers (git_config.py, git_refs.py, manifest_xml.py).  Python strings are
   modelled as `List Char`; Python dicts as association lists whose update
   (`dinsert`) preserves insertion order, exactly like a Python dict. -/

abbrev Str := List Char

/-- Python dict lookup, `d[k]` / `d.get(k)`. -/
def dlookup {β : Type} : List (Str × β) → Str → Option β
  | [], _ => none
  | (k, v) :: rest, key => if key = k then some v else dlookup rest key

/-- Python dict assignment `d[k] = v`: replaces in place, else appends. -/
def dinsert {β : Type} : List (Str × β) → Str → β → List (Str × β)
  | [], key, v => [(key, v)]
  | (k, w) :: rest, key, v =>
    if k = key then (k, v) :: rest else (k, w) :: dinsert rest key v

/-- Python dict deletion `del d[k]` (no-op when the key is absent). -/
def derase {β : Type} : List (Str × β) → Str → List (Str × β)
  | [], _ => []
  | (k, v) :: rest, key =>
    if k = key then derase rest key else (k, v) :: derase rest key

/-- Keys of an association list, in order. -/
def dkeys {β : Type} (l : List (Str × β)) : List Str :=
  l.map Prod.fst

/- ----------------------------------------------------------------- -/
/- git_config.py: RefSpec                                            -/
/- ----------------------------------------------------------------- -/

def slashStar : Str := "/*".toList

def R_HEADS : Str := "refs/heads/".toList

/-- git_config.py `RefSpec`: a fetch refspec `[+]src:dst`. -/
structure RefSpec where
  forced : Bool
  src : Str
  dst : Str
deriving DecidableEq

/-- git_config.py `RefSpec.SourceMatches`: `rev` equals `src`, or `src` ends
with `/*` and `rev` starts with `src` minus the `*`. -/
def RefSpec.SourceMatches (R : RefSpec) (rev : Str) : Bool :=
  if R.src ≠ [] then
    if rev = R.src then true
    else if slashStar <:+ R.src ∧ R.src.dropLast <+: rev then true
    else false
  else false

/-- git_config.py `RefSpec.DestMatches`: `ref` equals `dst`, or `dst` ends
with `/*` and `ref` starts with `dst` minus the `*`. -/
def RefSpec.DestMatches (R : RefSpec) (ref : Str) : Bool :=
  if R.dst ≠ [] then
    if ref = R.dst then true
    else if slashStar <:+ R.dst ∧ R.dst.dropLast <+: ref then true
    else false
  else false

/-- git_config.py `RefSpec.MapSource`: for a wildcard `src`, substitute the
matched suffix of `rev` into `dst[:-1]`; otherwise return `dst`. -/
def RefSpec.MapSource (R : RefSpec) (rev : Str) : Str :=
  if slashStar <:+ R.src then R.dst.dropLast ++ rev.drop (R.src.length - 1)
  else R.dst

/- ----------------------------------------------------------------- -/
/- git_config.py: IsId and Remote.ToLocal                            -/
/- ----------------------------------------------------------------- -/

/-- One character of `ID_RE = ^[0-9a-f]{40}$`. -/
def isHexLower (c : Char) : Bool :=
  ('0' ≤ c && c ≤ '9') || ('a' ≤ c && c ≤ 'f')

/-- git_config.py `IsId(rev)`: `rev` matches `^[0-9a-f]{40}$`. -/
def IsId (rev : Str) : Bool :=
  decide (rev.length = 40) && rev.all isHexLower

/-- git_config.py `Remote`, restricted to the fields `ToLocal` reads. -/
structure Remote where
  name : Str
  fetch : List RefSpec

/-- The qualification step of `Remote.ToLocal`: a name not starting with
`refs/` gets the `refs/heads/` namespace prepended. -/
def qualify (rev : Str) : Str :=
  if "refs/".toList <+: rev then rev else R_HEADS ++ rev

/-- git_config.py `Remote.ToLocal(rev)`: identity for a self-remote (`.`) or
a 40-hex id; otherwise qualify bare names, map through the first matching
fetch RefSpec, pass non-`refs/heads/` refs through, and fail otherwise. -/
def Remote.ToLocal (R : Remote) (rev : Str) : Except Str Str :=
  if R.name = ['.'] ∨ IsId rev = true then .ok rev
  else
    let rev' := qualify rev
    match R.fetch.find? (fun s => s.SourceMatches rev') with
    | some s => .ok (s.MapSource rev')
    | none =>
      if ¬ (R_HEADS <+: rev') then .ok rev'
      else .error ("remote ".toList ++ R.name ++ " does not have ".toList ++ rev')

/- ----------------------------------------------------------------- -/
/- git_config.py: GitConfig.UrlInsteadOf                             -/
/- ----------------------------------------------------------------- -/

/-- The data `GitConfig.UrlInsteadOf` iterates over: for each subsection
`new_url` listed by `GetSubSections('url')`, the value list of
`url.<new_url>.insteadof` as returned by `GetString(..., all_keys=True)`
(entries may be `None`, hence `Option`). -/
abbrev UrlSections := List (Str × List (Option Str))

/-- The inner loop of `UrlInsteadOf`: scan one subsection's `insteadof`
values; on the first `old_url` that is a prefix of `url`, rewrite. -/
def urlInsteadOfScan (new_url : Str) (olds : List (Option Str)) (url : Str) :
    Option Str :=
  match olds with
  | [] => none
  | none :: rest => urlInsteadOfScan new_url rest url
  | some old :: rest =>
    if old <+: url then some (new_url ++ url.drop old.length)
    else urlInsteadOfScan new_url rest url

/-- git_config.py `GitConfig.UrlInsteadOf(url)`: return on the first
`url.<new_url>.insteadof` entry that is a prefix of `url`; otherwise return
`url` unchanged. -/
def UrlInsteadOf (sections : UrlSections) (url : Str) : Str :=
  match sections with
  | [] => url
  | (new_url, olds) :: rest =>
    match urlInsteadOfScan new_url olds url with
    | some r => r
    | none => UrlInsteadOf rest url

/-- All configured `(new_url, old_url)` pairs, in iteration order, with
`None` values dropped. -/
def insteadOfPairs : UrlSections → List (Str × Str)
  | [] => []
  | (new_url, olds) :: rest =>
    olds.filterMap (fun o => o.map (fun s => (new_url, s))) ++ insteadOfPairs rest

/-- Modelled from the spec's words: "returns `url` rewritten with the longest
matching prefix substituted; unmatched input returned unchanged".  Scans all
entries and keeps the one with the strictly longest matching `old_url`. -/
def UrlInsteadOfLongest (sections : UrlSections) (url : Str) : Str :=
  let best := (insteadOfPairs sections).foldl
    (fun best p =>
      if p.2 <+: url ∧ (∀ b ∈ best, b.2.length < p.2.length) then some p else best)
    none
  match best with
  | some p => p.1 ++ url.drop p.2.length
  | none => url

/- ----------------------------------------------------------------- -/
/- git_config.py: the JSON side-file cache (_Read / _ReadJson)       -/
/- ----------------------------------------------------------------- -/

/-- The file-system facts `GitConfig._Read` observes.  `jsonMtime` /
`fileMtime` are `none` when `os.path.getmtime` raises `OSError` (file
missing); `jsonParse` is `none` when opening or `json.load`-ing the
side-file raises `IOError`/`ValueError` (unreadable or corrupt); `gitData`
is the key/value map `_ReadGit` obtains from the backing file through the
external `git config --null --list` call. -/
structure ConfigFS (α : Type) where
  jsonMtime : Option Nat
  fileMtime : Option Nat
  jsonParse : Option α
  gitData : α

/-- Effect of `os.remove(self._json)` on the observed state. -/
def removeJson {α : Type} (fs : ConfigFS α) : ConfigFS α :=
  { fs with jsonMtime := none, jsonParse := none }

/-- git_config.py `GitConfig._ReadJson`: if either mtime is unavailable,
return `None`; if the side-file is not strictly newer than the backing
file, delete it and return `None`; otherwise load it, deleting it and
returning `None` when the load fails. -/
def ReadJson {α : Type} (fs : ConfigFS α) : Option α × ConfigFS α :=
  match fs.jsonMtime, fs.fileMtime with
  | some jm, some fm =>
    if jm ≤ fm then (none, removeJson fs)
    else
      match fs.jsonParse with
      | some d => (some d, fs)
      | none => (none, removeJson fs)
  | _, _ => (none, fs)

/-- Effect of `GitConfig._SaveJson` on the observed state: the side-file now
holds `d` and carries the write time `now`. -/
def SaveJson {α : Type} (d : α) (now : Nat) (fs : ConfigFS α) : ConfigFS α :=
  { fs with jsonMtime := some now, jsonParse := some d }

/-- git_config.py `GitConfig._Read`: use the side-file when `_ReadJson`
trusts it, else rebuild from the backing file via `_ReadGit` and rewrite
the side-file. -/
def ConfigRead {α : Type} (now : Nat) (fs : ConfigFS α) : α × ConfigFS α :=
  match ReadJson fs with
  | (some d, fs') => (d, fs')
  | (none, fs') => (fs'.gitData, SaveJson fs'.gitData now fs')

/- ----------------------------------------------------------------- -/
/- manifest_xml.py: _XmlRemote, _Unload / _Load, remote pass         -/
/- ----------------------------------------------------------------- -/

/-- manifest_xml.py `_XmlRemote`, as built by `_ParseRemote`: `name` and
`fetchUrl` are required attributes; `alias`, `pushUrl`, `review` and
`revision` are `None` when absent; `manifestUrl` is the manifest
repository's `remote.origin.url`.  The derived field `resolvedFetchUrl` is
a function of `fetchUrl` and `manifestUrl` (`_resolveFetchUrl`), so
`__eq__`, which compares all of `__dict__`, holds exactly when these seven
fields agree; it is therefore omitted here. -/
structure _XmlRemote where
  name : Str
  remoteAlias : Option Str
  fetchUrl : Str
  pushUrl : Option Str
  manifestUrl : Option Str
  reviewUrl : Option Str
  revision : Option Str
deriving DecidableEq

/-- The `remote`-node pass of `manifest_xml.py _ParseManifest`: each parsed
remote is added to `self._remotes`; a name already present with different
attributes raises `ManifestParseError`, an identical duplicate is skipped. -/
def ParseManifestRemotes : List _XmlRemote → List (Str × _XmlRemote) →
    Except Str (List (Str × _XmlRemote))
  | [], acc => .ok acc
  | r :: rest, acc =>
    match dlookup acc r.name with
    | some r0 =>
      if r ≠ r0 then
        .error ("remote ".toList ++ r.name ++
                " already exists with different attributes".toList)
      else ParseManifestRemotes rest acc
    | none => ParseManifestRemotes rest (dinsert acc r.name r)

/-- A stand-in for manifest_xml.py `Project`, carrying the fields the
engine-state claims inspect. -/
structure ProjectE where
  name : Str
  relpath : Str
deriving DecidableEq

/-- manifest_xml.py `_Default`, as built by `_ParseDefault`. -/
structure DefaultE where
  remote : Option _XmlRemote
  revisionExpr : Option Str
  destBranchExpr : Option Str
  sync_j : Int
  sync_c : Bool
  sync_s : Bool
deriving DecidableEq

/-- The mutable state of `XmlManifest` that `_Load` / `_Unload` manage. -/
structure EngineState where
  loaded : Bool
  projects : List (Str × List ProjectE)
  paths : List (Str × ProjectE)
  remotes : List (Str × _XmlRemote)
  _default : Option DefaultE
  repo_hooks_project : Option ProjectE
  notice : Option Str
  branch : Option Str
  manifest_server : Option Str
deriving DecidableEq

/-- manifest_xml.py `XmlManifest._Unload`: reset every table and singleton
to its unloaded value. -/
def _Unload : EngineState :=
  ⟨false, [], [], [], none, none, none, none, none⟩

/-- manifest_xml.py `XmlManifest._Load`: when not yet loaded, set `branch`,
run `_ParseManifest` (abstracted as the state transformer `parse`, which
may raise), and on `ManifestParseError` restore the unloaded state and
re-raise; on success mark the state loaded. -/
def _LoadStep (branchVal : Option Str)
    (parse : EngineState → Except Str EngineState) (s : EngineState) :
    Except Str Unit × EngineState :=
  if s.loaded then (.ok (), s)
  else
    match parse { s with branch := branchVal } with
    | .ok s2 => (.ok (), { s2 with loaded := true })
    | .error e => (.error e, _Unload)

/- ----------------------------------------------------------------- -/
/- manifest_xml.py: _ParseProject revision resolution                -/
/- ----------------------------------------------------------------- -/

/-- Python truthiness of an optional string (`None` and `''` are falsy). -/
def optTruthy : Option Str → Bool
  | none => false
  | some s => decide (s ≠ [])

/-- manifest_xml.py `_ParseProject` revision resolution:
`revisionExpr = node.getAttribute('revision') or remote.revision`, falling
back to `self._default.revisionExpr`, and raising `ManifestParseError`
when the result is still falsy.  `nodeRev` is the node's attribute (`''`
when absent), `remoteRev` the remote's fixed revision, `defaultRev` the
Default's revision expression. -/
def resolveRevisionExpr (nodeRev : Str) (remoteRev defaultRev : Option Str) :
    Except Str Str :=
  let r1 : Option Str := if nodeRev ≠ [] then some nodeRev else remoteRev
  let r2 : Option Str := if optTruthy r1 then r1 else defaultRev
  match r2 with
  | some s => if s ≠ [] then .ok s else .error "no revision for project".toList
  | none => .error "no revision for project".toList

/- ----------------------------------------------------------------- -/
/- git_refs.py: GitRefs                                              -/
/- ----------------------------------------------------------------- -/

/-- Python `str.split(sep)` for a one-character separator (no collapsing;
the empty string splits to `['']`). -/
def pySplit (sep : Char) : Str → List Str
  | [] => [[]]
  | c :: rest =>
    match pySplit sep rest with
    | [] => [[]]
    | p :: ps => if c = sep then [] :: p :: ps else (c :: p) :: ps

def HEAD : Str := "HEAD".toList

def refColon : Str := "ref: ".toList

/-- The three tables of git_refs.py `GitRefs`, in the loaded state:
`phyref` maps a ref name to a commit id, `symref` maps a ref name to
another ref name, `mtime` records the last observed modification time of
each contributing file. -/
structure RefState where
  phyref : List (Str × Str)
  symref : List (Str × Str)
  mtime : List (Str × Nat)
deriving DecidableEq

/-- One line of git_refs.py `GitRefs._ReadPackedRefs`: skip `#` and `^`
lines, strip the trailing newline, split on spaces, and store
`phyref[name] = ref_id`. -/
def readPackedLine (st : RefState) (line : Str) : RefState :=
  match line with
  | [] => st
  | c :: _ =>
    if c = '#' ∨ c = '^' then st
    else
      match pySplit ' ' line.dropLast with
      | ref_id :: name :: _ => { st with phyref := dinsert st.phyref name ref_id }
      | _ => st

/-- git_refs.py `GitRefs._ReadPackedRefs`: fold the packed-refs lines, then
record the file's modification time under the key `packed-refs`. -/
def readPackedRefs (st : RefState) (lines : List Str) (m : Nat) : RefState :=
  let st' := lines.foldl readPackedLine st
  { st' with mtime := dinsert st'.mtime "packed-refs".toList m }

/-- git_refs.py `GitRefs._ReadLoose1`: read the first line of one loose ref
file.  An empty read is skipped; otherwise the trailing newline is
stripped, a `ref: ` line goes to `symref`, anything else to `phyref`, and
the file's modification time is recorded. -/
def readLoose1 (st : RefState) (name line : Str) (m : Nat) : RefState :=
  if line = [] then st
  else
    let ref_id := line.dropLast
    if refColon <+: ref_id then
      { st with symref := dinsert st.symref name (ref_id.drop 5),
                mtime := dinsert st.mtime name m }
    else
      { st with phyref := dinsert st.phyref name ref_id,
                mtime := dinsert st.mtime name m }

/-- One pass of the symbolic-resolution loop in `GitRefs._LoadAll`: for each
`(name, dest)` still to scan, if `dest` is already physical, record
`phyref[name] = phyref[dest]` (visible to the rest of the same pass),
otherwise carry the pair into the next scan. -/
def onePass : List (Str × Str) → List (Str × Str) →
    List (Str × Str) × List (Str × Str)
  | [], phy => (phy, [])
  | (name, dest) :: rest, phy =>
    match dlookup phy dest with
    | some i => onePass rest (dinsert phy name i)
    | none =>
      let r := onePass rest phy
      (r.1, (name, dest) :: r.2)

/-- The `while scan and attempts < 5` loop of `GitRefs._LoadAll`: run up to
`fuel` passes, stopping early when the scan set is empty.  Returns the
final physical map and the entries that never resolved. -/
def resolveLoop : Nat → List (Str × Str) → List (Str × Str) →
    List (Str × Str) × List (Str × Str)
  | 0, scan, phy => (phy, scan)
  | fuel + 1, scan, phy =>
    if scan = [] then (phy, scan)
    else
      let p := onePass scan phy
      resolveLoop fuel p.2 p.1

/-- The input a `GitRefs._LoadAll` call reads from the repository: the
packed-refs lines with the file's mtime, the loose ref files (name, first
line, mtime) in traversal order, and the HEAD file's first line and
mtime. -/
structure RefsInput where
  packedLines : List Str
  packedM : Nat
  loose : List (Str × Str × Nat)
  headLine : Str
  headM : Nat

/-- git_refs.py `GitRefs._LoadAll` before the resolution loop: fresh empty
tables, then `_ReadPackedRefs`, `_ReadLoose('refs/')` (one `_ReadLoose1`
per file found) and `_ReadLoose1(HEAD)`. -/
def _LoadRaw (inp : RefsInput) : RefState :=
  let st0 : RefState := ⟨[], [], []⟩
  let st1 := readPackedRefs st0 inp.packedLines inp.packedM
  let st2 := inp.loose.foldl (fun st e => readLoose1 st e.1 e.2.1 e.2.2) st1
  readLoose1 st2 HEAD inp.headLine inp.headM

/-- git_refs.py `GitRefs._LoadAll`: the reads followed by at most 5
resolution passes over the symbolic table. -/
def _LoadAll (inp : RefsInput) : RefState :=
  let st := _LoadRaw inp
  { st with phyref := (resolveLoop 5 st.symref st.phyref).1 }

/-- The entries still unresolved when the 5-pass loop of `_LoadAll` ends
(the final value of its `scan` variable, which the source discards). -/
def loadScan (inp : RefsInput) : List (Str × Str) :=
  let st := _LoadRaw inp
  (resolveLoop 5 st.symref st.phyref).2

/-- git_refs.py `GitRefs.get(name)` on a loaded state: the physical entry,
or the empty string. -/
def refsGet (st : RefState) (name : Str) : Str :=
  (dlookup st.phyref name).getD []

/-- A chain of symbolic indirections: `Chain sym phy n k` says `n` reaches
an entry of the physical map `phy` after exactly `k` links of `sym`. -/
inductive Chain (sym phy : List (Str × Str)) : Str → Nat → Prop
  | zero (n i : Str) : dlookup phy n = some i → Chain sym phy n 0
  | succ (n d : Str) (k : Nat) : dlookup sym n = some d →
      Chain sym phy d k → Chain sym phy n (k + 1)

/-- git_refs.py `GitRefs._NeedUpdate`: some tracked file's current
modification time (`fs name`, `none` when `os.path.getmtime` raises) is
missing or differs from the recorded one. -/
def _NeedUpdate (fs : Str → Option Nat) (st : RefState) : Bool :=
  st.mtime.any (fun p => decide (fs p.1 ≠ some p.2))

/-- git_refs.py `GitRefs.deleted(name)` on a loaded state: purge `name`
from the physical, symbolic and mtime tables. -/
def refsDeleted (st : RefState) (name : Str) : RefState :=
  { phyref := derase st.phyref name,
    symref := derase st.symref name,
    mtime := derase st.mtime name }

/-- git_refs.py `GitRefs._EnsureLoaded` on a loaded state: reload (to
`reload`, the result `_LoadAll` would produce) exactly when `_NeedUpdate`
reports a changed file. -/
def _EnsureLoaded (fs : Str → Option Nat) (reload : RefState)
    (st : RefState) : RefState :=
  if _NeedUpdate fs st then reload else st

/-- git_refs.py `GitRefs.get(name)` including the `_EnsureLoaded` step. -/
def refsGetE (fs : Str → Option Nat) (reload st : RefState) (name : Str) :
    Str :=
  refsGet (_EnsureLoaded fs reload st) name

/-- git_refs.py `GitRefs.symref(name)` including the `_EnsureLoaded` step:
the symbolic entry, or the empty string. -/
def refsSymrefE (fs : Str → Option Nat) (reload st : RefState)
    (name : Str) : Str :=
  (dlookup (_EnsureLoaded fs reload st).symref name).getD []

/- ----------------------------------------------------------------- -/
/- git_config.py: _key and SetString                                 -/
/- ----------------------------------------------------------------- -/

/-- Python `str.lower()` (per character). -/
def lcase (s : Str) : Str := s.map Char.toLower

/-- Lower-case the last element of a list of parts. -/
def lowerLast : List Str → List Str
  | [] => []
  | [p] => [lcase p]
  | p :: q :: rest => p :: lowerLast (q :: rest)

/-- git_config.py `_key(name)`: split on `.`; with fewer than two parts,
lower-case the whole name; otherwise lower-case the first and last part
and rejoin with `.`. -/
def _key (name : Str) : Str :=
  let parts := pySplit '.' name
  if parts.length < 2 then lcase name
  else
    match parts with
    | [] => lcase name
    | p :: rest => List.intercalate ['.'] (lcase p :: lowerLast rest)

/-- The `git config` invocations `GitConfig._do` issues for `SetString`. -/
inductive GitCmd where
  | unsetAll (name : Str)
  | replaceAll (name value : Str)
  | add (name value : Str)
deriving DecidableEq

/-- The `value` argument of `GitConfig.SetString`: `None`, a string, or a
list of strings. -/
inductive PyVal where
  | vnone
  | vstr (s : Str)
  | vlist (l : List Str)

/-- git_config.py `GitConfig.SetString(name, value)` acting on the cache:
returns the updated cache and the `_do` invocations issued.  `None`
deletes all values (when any exist); an empty or singleton list recurses
into the `None` / single-string cases; otherwise the cache and file are
only touched when the new value differs from the cached one. -/
def SetString (cache : List (Str × List Str)) (name : Str) (value : PyVal) :
    List (Str × List Str) × List GitCmd :=
  let key := _key name
  let old := (dlookup cache key).getD []
  match value with
  | .vnone =>
    if old ≠ [] then (derase cache key, [.unsetAll name]) else (cache, [])
  | .vlist [] =>
    if old ≠ [] then (derase cache key, [.unsetAll name]) else (cache, [])
  | .vlist [v] =>
    if old.length ≠ 1 ∨ old.headD [] ≠ v then
      (dinsert cache key [v], [.replaceAll name v])
    else (cache, [])
  | .vlist (v₁ :: v₂ :: vs) =>
    if old ≠ v₁ :: v₂ :: vs then
      (dinsert cache key (v₁ :: v₂ :: vs),
       .replaceAll name v₁ :: (v₂ :: vs).map (GitCmd.add name))
    else (cache, [])
  | .vstr v =>
    if old.length ≠ 1 ∨ old.headD [] ≠ v then
      (dinsert cache key [v], [.replaceAll name v])
    else (cache, [])

/-- The idempotence guard of claim C10: the cached value list already
equals the requested value. -/
def sameAsCache (old : List Str) : PyVal → Prop
  | .vnone => old = []
  | .vstr v => old = [v]
  | .vlist l => old = l

/- ================================================================= -/
/- Theorems                                                          -/
/- ================================================================= -/

theorem dlookup_dinsert_self {β : Type} (l : List (Str × β)) (k : Str) (v : β) :
    dlookup (dinsert l k v) k = some v := by
  induction l with
  | nil => simp [dinsert, dlookup]
  | cons hd rest ih =>
    obtain ⟨k', w⟩ := hd
    by_cases h : k' = k
    · simp [dinsert, h, dlookup]
    · simp [dinsert, h, dlookup, Ne.symm h, ih]

theorem dlookup_dinsert_ne {β : Type} (l : List (Str × β)) (k : Str) (v : β)
    (n : Str) (h : n ≠ k) : dlookup (dinsert l k v) n = dlookup l n := by
  induction l with
  | nil => simp [dinsert, dlookup, h]
  | cons hd rest ih =>
    obtain ⟨k', w⟩ := hd
    by_cases h' : k' = k
    · subst h'
      simp [dinsert, dlookup, h]
    · by_cases h'' : n = k'
      · simp [dinsert, h', dlookup, h'']
      · simp [dinsert, h', dlookup, h'', ih]

theorem isSome_dlookup_dinsert {β : Type} (l : List (Str × β)) (k : Str)
    (v : β) (n : Str) (h : (dlookup l n).isSome) :
    (dlookup (dinsert l k v) n).isSome := by
  by_cases hk : n = k
  · subst hk
    simp [dlookup_dinsert_self]
  · rwa [dlookup_dinsert_ne _ _ _ _ hk]

theorem dlookup_derase_self {β : Type} (l : List (Str × β)) (k : Str) :
    dlookup (derase l k) k = none := by
  induction l with
  | nil => rfl
  | cons hd rest ih =>
    obtain ⟨k', w⟩ := hd
    by_cases h : k' = k
    · simpa [derase, h] using ih
    · simp [derase, h, dlookup, Ne.symm h, ih]

theorem dlookup_derase_ne {β : Type} (l : List (Str × β)) (k : Str) (n : Str)
    (h : n ≠ k) : dlookup (derase l k) n = dlookup l n := by
  induction l with
  | nil => rfl
  | cons hd rest ih =>
    obtain ⟨k', w⟩ := hd
    by_cases h' : k' = k
    · subst h'
      simp [derase, dlookup, h, ih]
    · by_cases h'' : n = k'
      · simp [derase, h', dlookup, h'']
      · simp [derase, h', dlookup, h'', ih]

/-- Claim C1 as stated is false: the refspec `refs/heads/*:refs/mirror`
(wildcard source, non-wildcard destination) source-matches
`refs/heads/x`, but `MapSource` yields `refs/mirrox`, which
`DestMatches` rejects. -/
theorem C1_refspec_roundtrip_counterexample :
    RefSpec.SourceMatches ⟨false, "refs/heads/*".toList, "refs/mirror".toList⟩
      "refs/heads/x".toList = true ∧
    RefSpec.MapSource ⟨false, "refs/heads/*".toList, "refs/mirror".toList⟩
      "refs/heads/x".toList = "refs/mirrox".toList ∧
    RefSpec.DestMatches ⟨false, "refs/heads/*".toList, "refs/mirror".toList⟩
      (RefSpec.MapSource ⟨false, "refs/heads/*".toList, "refs/mirror".toList⟩
        "refs/heads/x".toList) = false := by
  decide

/-- C1 (amended): for every RefSpec whose destination side is nonempty and
which is wildcard-consistent (a wildcard source implies a wildcard
destination) — which every real fetch refspec is — `SourceMatches r`
implies `DestMatches (MapSource r)`. -/
theorem C1_refspec_roundtrip (R : RefSpec) (r : Str)
    (hdst : R.dst ≠ [])
    (hw : slashStar <:+ R.src → slashStar <:+ R.dst)
    (_hsm : R.SourceMatches r = true) :
    R.DestMatches (R.MapSource r) = true := by
  unfold RefSpec.DestMatches RefSpec.MapSource
  by_cases hs : slashStar <:+ R.src
  · rw [if_pos hs, if_pos hdst]
    by_cases he : R.dst.dropLast ++ r.drop (R.src.length - 1) = R.dst
    · rw [if_pos he]
    · rw [if_neg he, if_pos ⟨hw hs, ⟨_, rfl⟩⟩]
  · rw [if_neg hs, if_pos hdst, if_pos rfl]

/-- Witness for C1: the stock refspec `+refs/heads/*:refs/remotes/origin/*`
maps `refs/heads/stable` to a destination-matching ref. -/
theorem C1_refspec_roundtrip_witness :
    ("refs/remotes/origin/*".toList ≠ ([] : Str)) ∧
    (slashStar <:+ "refs/heads/*".toList → slashStar <:+ "refs/remotes/origin/*".toList) ∧
    RefSpec.SourceMatches
      ⟨true, "refs/heads/*".toList, "refs/remotes/origin/*".toList⟩
      "refs/heads/stable".toList = true ∧
    RefSpec.DestMatches
      ⟨true, "refs/heads/*".toList, "refs/remotes/origin/*".toList⟩
      (RefSpec.MapSource
        ⟨true, "refs/heads/*".toList, "refs/remotes/origin/*".toList⟩
        "refs/heads/stable".toList) = true :=
  ⟨by decide, by decide, by decide,
   C1_refspec_roundtrip _ _ (by decide) (by decide) (by decide)⟩

theorem urlInsteadOfScan_eq_find (nu : Str) (olds : List (Option Str))
    (url : Str) :
    urlInsteadOfScan nu olds url =
      ((olds.filterMap (fun o => o.map (fun s => (nu, s)))).find?
        (fun p => decide (p.2 <+: url))).map
        (fun p => p.1 ++ url.drop p.2.length) := by
  induction olds with
  | nil => rfl
  | cons o os ih =>
    cases o with
    | none => simpa [urlInsteadOfScan, List.filterMap_cons] using ih
    | some old =>
      by_cases hp : old <+: url
      · simp [urlInsteadOfScan, hp, List.filterMap_cons,
              List.find?_cons_of_pos]
      · simp only [urlInsteadOfScan, List.filterMap_cons, Option.map_some']
        rw [if_neg hp, List.find?_cons_of_neg]
        · exact ih
        · simpa using hp

/-- Claim C3 as stated is false: with the single configured subsection
`url.repl.insteadof = [h, ht]` and input `http`, both entries are
prefixes, the longest being `ht` (spec result `repltp`), but the code
returns on the first matching entry `h`, giving `replttp`. -/
theorem C3_UrlInsteadOf_counterexample :
    UrlInsteadOf [("repl".toList, [some "h".toList, some "ht".toList])]
      "http".toList = "replttp".toList ∧
    UrlInsteadOfLongest [("repl".toList, [some "h".toList, some "ht".toList])]
      "http".toList = "repltp".toList ∧
    ("replttp".toList : Str) ≠ "repltp".toList := by
  decide

/-- C3 (amended): `UrlInsteadOf` rewrites `url` with the FIRST configured
`url.<new_url>.insteadof` entry (in subsection iteration order and value
order) whose `old_url` is a prefix of `url`, and returns `url` unchanged
when no entry is a prefix of it. -/
theorem C3_UrlInsteadOf_firstMatch (sections : UrlSections) (url : Str) :
    UrlInsteadOf sections url =
      match (insteadOfPairs sections).find? (fun p => decide (p.2 <+: url)) with
      | some p => p.1 ++ url.drop p.2.length
      | none => url := by
  induction sections with
  | nil => rfl
  | cons hd rest ih =>
    obtain ⟨nu, olds⟩ := hd
    simp only [UrlInsteadOf, insteadOfPairs, urlInsteadOfScan_eq_find,
               List.find?_append]
    cases hfind : (olds.filterMap (fun o => o.map (fun s => (nu, s)))).find?
        (fun p => decide (p.2 <+: url)) with
    | none => simpa [hfind] using ih
    | some p => simp [hfind]

/-- C4: `_Read` uses the JSON side-file exactly when its mtime is strictly
newer than the backing file's and it parses; in every other case (older or
same age — in particular after the backing file's mtime advances past the
side-file's — missing mtimes, or corrupt side-file) the map is rebuilt
from the backing file via the external tool and the side-file rewritten
with that content, and in the stale and corrupt cases the side-file is
deleted first. -/
theorem C4_cache_trust {α : Type} (fs : ConfigFS α) (now : Nat) :
    (∀ jm fm d, fs.jsonMtime = some jm → fs.fileMtime = some fm → fm < jm →
      fs.jsonParse = some d → ConfigRead now fs = (d, fs)) ∧
    ((fs.jsonMtime = none ∨ fs.fileMtime = none ∨
      (∃ jm fm, fs.jsonMtime = some jm ∧ fs.fileMtime = some fm ∧ jm ≤ fm) ∨
      fs.jsonParse = none) →
      (ConfigRead now fs).1 = fs.gitData ∧
      (ConfigRead now fs).2.jsonParse = some fs.gitData) ∧
    (∀ jm fm, fs.jsonMtime = some jm → fs.fileMtime = some fm → jm ≤ fm →
      (ReadJson fs).2.jsonParse = none ∧ (ReadJson fs).2.jsonMtime = none) ∧
    (∀ jm fm, fs.jsonMtime = some jm → fs.fileMtime = some fm → fm < jm →
      fs.jsonParse = none →
      (ReadJson fs).2.jsonParse = none ∧ (ReadJson fs).2.jsonMtime = none) := by
  obtain ⟨jm?, fm?, jp?, g⟩ := fs
  refine ⟨?_, ?_, ?_, ?_⟩
  · rintro jm fm d rfl rfl hlt hp
    simp only at hp
    subst hp
    simp [ConfigRead, ReadJson, Nat.not_le.mpr hlt]
  · rintro (h | h | ⟨jm, fm, hj, hf, hle⟩ | h)
    · simp only at h
      subst h
      simp [ConfigRead, ReadJson, SaveJson]
    · simp only at h
      subst h
      cases jm? <;> simp [ConfigRead, ReadJson, SaveJson]
    · simp only at hj hf
      subst hj
      subst hf
      simp [ConfigRead, ReadJson, hle, removeJson, SaveJson]
    · simp only at h
      subst h
      cases jm? <;> cases fm? <;>
        simp [ConfigRead, ReadJson, removeJson, SaveJson] <;>
        split <;> simp [removeJson, SaveJson]
  · rintro jm fm rfl rfl hle
    simp [ReadJson, hle, removeJson]
  · rintro jm fm rfl rfl hlt hp
    simp only at hp
    subst hp
    simp [ReadJson, Nat.not_le.mpr hlt, removeJson]

/-- Witness for C4: a state whose side-file (mtime 5) is older than the
backing file (mtime 7) is rebuilt from the backing data. -/
theorem C4_cache_trust_witness :
    ((some 5 : Option Nat) = some 5 ∧ (some 7 : Option Nat) = some 7 ∧
      (5 : Nat) ≤ 7) ∧
    (ConfigRead 9 (⟨some 5, some 7, some 1, 2⟩ : ConfigFS Nat)).1 = 2 ∧
    (ConfigRead 9 (⟨some 5, some 7, some 1, 2⟩ : ConfigFS Nat)).2.jsonParse =
      some 2 :=
  ⟨⟨rfl, rfl, by decide⟩,
   (C4_cache_trust (⟨some 5, some 7, some 1, 2⟩ : ConfigFS Nat) 9).2.1
     (Or.inr (Or.inr (Or.inl ⟨5, 7, rfl, rfl, by decide⟩)))⟩

/-- C5: when `_ParseManifest` raises a parse error, `_Load` re-raises it
and restores the unloaded state — empty project, path and remote tables,
no default, notice, manifest-server or hooks project — regardless of any
partially built state the failed parse left behind. -/
theorem C5_parse_error_unloads (branchVal : Option Str)
    (parse : EngineState → Except Str EngineState) (s : EngineState)
    (e : Str) (hl : s.loaded = false)
    (hp : parse { s with branch := branchVal } = .error e) :
    _LoadStep branchVal parse s = (.error e, _Unload) ∧
    _Unload.loaded = false ∧ _Unload.projects = [] ∧ _Unload.paths = [] ∧
    _Unload.remotes = [] ∧ _Unload._default = none ∧
    _Unload.repo_hooks_project = none ∧ _Unload.notice = none ∧
    _Unload.manifest_server = none := by
  refine ⟨?_, rfl, rfl, rfl, rfl, rfl, rfl, rfl, rfl⟩
  simp only [hl] at hp
  simp [_LoadStep, hl, hp]

/-- Witness for C5: a failing parse on a dirty (partially populated)
unloaded state yields the error and the pristine unloaded state. -/
theorem C5_parse_error_unloads_witness :
    (EngineState.loaded ⟨false, [("p".toList, [⟨"p".toList, "p".toList⟩])],
        [], [], none, none, none, none, some "srv".toList⟩ = false) ∧
    _LoadStep none (fun _ => .error "duplicate default".toList)
      ⟨false, [("p".toList, [⟨"p".toList, "p".toList⟩])],
        [], [], none, none, none, none, some "srv".toList⟩ =
      (.error "duplicate default".toList, _Unload) :=
  ⟨rfl,
   (C5_parse_error_unloads none (fun _ => .error "duplicate default".toList)
      ⟨false, [("p".toList, [⟨"p".toList, "p".toList⟩])],
        [], [], none, none, none, none, some "srv".toList⟩
      "duplicate default".toList rfl rfl).1⟩

/-- C6: a manifest carrying two remote declarations with the same name
fails the remote pass with a parse error precisely when the two
declarations differ in at least one attribute; an identical duplicate is
accepted and a single Remote entry is kept. -/
theorem C6_remote_duplicate (r1 r2 : _XmlRemote) (h : r1.name = r2.name) :
    ((∃ e, ParseManifestRemotes [r1, r2] [] = .error e) ↔ r1 ≠ r2) ∧
    (r1 = r2 → ParseManifestRemotes [r1, r2] [] = .ok [(r1.name, r1)]) := by
  have step : ParseManifestRemotes [r1, r2] [] =
      if r2 ≠ r1 then
        .error ("remote ".toList ++ r2.name ++
                " already exists with different attributes".toList)
      else .ok [(r1.name, r1)] := by
    simp [ParseManifestRemotes, dlookup, dinsert, h]
  constructor
  · rw [step]
    by_cases hne : r2 = r1
    · simp [hne]
    · simp [hne, Ne.symm hne]
  · intro he
    subst he
    simp at step
    exact step

/-- Witness for C6: two same-name remotes with different fetch URLs raise;
the identical duplicate of one of them is accepted as a single entry. -/
theorem C6_remote_duplicate_witness :
    ((⟨"o".toList, none, "https://a/".toList, none, none, none, none⟩ :
        _XmlRemote).name =
      (⟨"o".toList, none, "https://b/".toList, none, none, none, none⟩ :
        _XmlRemote).name) ∧
    (∃ e, ParseManifestRemotes
      [⟨"o".toList, none, "https://a/".toList, none, none, none, none⟩,
       ⟨"o".toList, none, "https://b/".toList, none, none, none, none⟩] [] =
      .error e) ∧
    ParseManifestRemotes
      [⟨"o".toList, none, "https://a/".toList, none, none, none, none⟩,
       ⟨"o".toList, none, "https://a/".toList, none, none, none, none⟩] [] =
      .ok [("o".toList,
            ⟨"o".toList, none, "https://a/".toList, none, none, none, none⟩)] :=
  ⟨rfl,
   (C6_remote_duplicate
      ⟨"o".toList, none, "https://a/".toList, none, none, none, none⟩
      ⟨"o".toList, none, "https://b/".toList, none, none, none, none⟩
      rfl).1.mpr (by decide),
   (C6_remote_duplicate
      ⟨"o".toList, none, "https://a/".toList, none, none, none, none⟩
      ⟨"o".toList, none, "https://a/".toList, none, none, none, none⟩
      rfl).2 rfl⟩

/-- C7: the revision of a parsed project node is the node's own `revision`
attribute when nonempty, else the owning remote's fixed revision when set,
else the Default's revision expression when set, and the parse fails
exactly when all three are unset. -/
theorem C7_revision_resolution (nodeRev : Str)
    (remoteRev defaultRev : Option Str) :
    (nodeRev ≠ [] →
      resolveRevisionExpr nodeRev remoteRev defaultRev = .ok nodeRev) ∧
    (nodeRev = [] → ∀ r, remoteRev = some r → r ≠ [] →
      resolveRevisionExpr nodeRev remoteRev defaultRev = .ok r) ∧
    (nodeRev = [] → optTruthy remoteRev = false →
      ∀ d, defaultRev = some d → d ≠ [] →
        resolveRevisionExpr nodeRev remoteRev defaultRev = .ok d) ∧
    ((∃ e, resolveRevisionExpr nodeRev remoteRev defaultRev = .error e) ↔
      (nodeRev = [] ∧ optTruthy remoteRev = false ∧
        optTruthy defaultRev = false)) := by
  refine ⟨fun h => ?_, fun h r hr hne => ?_, fun h hrf d hd hne => ?_, ?_⟩
  · simp [resolveRevisionExpr, h, optTruthy]
  · subst h
    subst hr
    simp [resolveRevisionExpr, optTruthy, hne]
  · subst h
    subst hd
    cases remoteRev with
    | none => simp [resolveRevisionExpr, optTruthy, hne]
    | some r =>
      simp only [optTruthy, decide_eq_false_iff_not, not_not] at hrf
      subst hrf
      simp [resolveRevisionExpr, optTruthy, hne]
  · constructor
    · rintro ⟨e, he⟩
      by_cases h1 : nodeRev = []
      · subst h1
        cases hrr : remoteRev with
        | some r =>
          by_cases hne : r = []
          · subst hne
            cases hdd : defaultRev with
            | some d =>
              by_cases hde : d = []
              · subst hde
                simp [hrr, hdd, optTruthy]
              · simp [resolveRevisionExpr, optTruthy, hrr, hdd, hde] at he
            | none => simp [hrr, hdd, optTruthy]
          · simp [resolveRevisionExpr, optTruthy, hrr, hne] at he
        | none =>
          cases hdd : defaultRev with
          | some d =>
            by_cases hde : d = []
            · subst hde
              simp [hrr, hdd, optTruthy]
            · simp [resolveRevisionExpr, optTruthy, hrr, hdd, hde] at he
          | none => simp [hrr, hdd, optTruthy]
      · simp [resolveRevisionExpr, optTruthy, h1] at he
    · rintro ⟨h1, h2, h3⟩
      subst h1
      cases remoteRev with
      | none =>
        cases defaultRev with
        | none => exact ⟨_, rfl⟩
        | some d =>
          simp only [optTruthy, decide_eq_false_iff_not, not_not] at h3
          subst h3
          exact ⟨"no revision for project".toList,
                 by simp [resolveRevisionExpr, optTruthy]⟩
      | some r =>
        simp only [optTruthy, decide_eq_false_iff_not, not_not] at h2
        subst h2
        cases defaultRev with
        | none => exact ⟨"no revision for project".toList,
                         by simp [resolveRevisionExpr, optTruthy]⟩
        | some d =>
          simp only [optTruthy, decide_eq_false_iff_not, not_not] at h3
          subst h3
          exact ⟨"no revision for project".toList,
                 by simp [resolveRevisionExpr, optTruthy]⟩

/-- Witness for C7: a node without a revision attribute inherits the
remote's fixed revision `refs/tags/v1`. -/
theorem C7_revision_resolution_witness :
    (([] : Str) = [] ∧ (some "refs/tags/v1".toList : Option Str) =
        some "refs/tags/v1".toList ∧ "refs/tags/v1".toList ≠ ([] : Str)) ∧
    resolveRevisionExpr [] (some "refs/tags/v1".toList)
      (some "master".toList) = .ok "refs/tags/v1".toList :=
  ⟨⟨rfl, rfl, by decide⟩,
   (C7_revision_resolution [] (some "refs/tags/v1".toList)
      (some "master".toList)).2.1 rfl "refs/tags/v1".toList rfl (by decide)⟩

/-- C2: `Remote.ToLocal` is the identity for a self-remote or a 40-hex id;
otherwise it qualifies bare names under `refs/heads/`, applies the first
source-matching RefSpec, passes a non-`refs/heads/` unmatched rev through
unchanged, and raises `GitError` (`remote ... does not have ...`) exactly
when no RefSpec matches and the qualified rev is under `refs/heads/`. -/
theorem C2_ToLocal_cases (R : Remote) (rev : Str) :
    ((R.name = ['.'] ∨ IsId rev = true) → R.ToLocal rev = .ok rev) ∧
    (("refs/".toList <+: rev → qualify rev = rev) ∧
     (¬ "refs/".toList <+: rev → qualify rev = R_HEADS ++ rev)) ∧
    (R.name ≠ ['.'] → IsId rev = false →
      (∀ s, R.fetch.find? (fun sp => sp.SourceMatches (qualify rev)) = some s →
        R.ToLocal rev = .ok (s.MapSource (qualify rev))) ∧
      (R.fetch.find? (fun sp => sp.SourceMatches (qualify rev)) = none →
        (¬ R_HEADS <+: qualify rev → R.ToLocal rev = .ok (qualify rev)) ∧
        (R_HEADS <+: qualify rev →
          R.ToLocal rev =
            .error ("remote ".toList ++ R.name ++ " does not have ".toList ++
                    qualify rev)))) := by
  refine ⟨fun h => ?_, ⟨fun h => ?_, fun h => ?_⟩, fun h1 h2 => ?_⟩
  · simp [Remote.ToLocal, h]
  · unfold qualify
    rw [if_pos h]
  · unfold qualify
    rw [if_neg h]
  · have hng : ¬ (R.name = ['.'] ∨ IsId rev = true) := by
      rintro (h | h)
      · exact h1 h
      · rw [h2] at h
        exact Bool.false_ne_true h
    refine ⟨fun s hs => ?_, fun hn => ⟨fun hh => ?_, fun hh => ?_⟩⟩
    · simp [Remote.ToLocal, hng, hs]
    · simp [Remote.ToLocal, hng, hn, hh]
    · simp [Remote.ToLocal, hng, hn, hh]

/-- Witness for C2: the remote `origin` with fetch
`+refs/heads/*:refs/remotes/origin/*` maps the bare revision `stable` to
`refs/remotes/origin/stable`. -/
theorem C2_ToLocal_cases_witness :
    (("origin".toList : Str) ≠ ['.']) ∧
    IsId "stable".toList = false ∧
    (Remote.fetch ⟨"origin".toList,
        [⟨true, "refs/heads/*".toList, "refs/remotes/origin/*".toList⟩]⟩).find?
      (fun sp => sp.SourceMatches (qualify "stable".toList)) =
      some ⟨true, "refs/heads/*".toList, "refs/remotes/origin/*".toList⟩ ∧
    Remote.ToLocal ⟨"origin".toList,
        [⟨true, "refs/heads/*".toList, "refs/remotes/origin/*".toList⟩]⟩
      "stable".toList = .ok "refs/remotes/origin/stable".toList :=
  ⟨by decide, by decide, by decide,
   ((C2_ToLocal_cases ⟨"origin".toList,
      [⟨true, "refs/heads/*".toList, "refs/remotes/origin/*".toList⟩]⟩
      "stable".toList).2.2 (by decide) (by decide)).1
     ⟨true, "refs/heads/*".toList, "refs/remotes/origin/*".toList⟩ (by decide)⟩

theorem mem_of_mem_derase {β : Type} {l : List (Str × β)} {k : Str}
    {p : Str × β} (h : p ∈ derase l k) : p ∈ l := by
  induction l with
  | nil => simpa [derase] using h
  | cons hd rest ih =>
    obtain ⟨k', w⟩ := hd
    by_cases hk : k' = k
    · simp only [derase, if_pos hk] at h
      exact List.mem_cons_of_mem _ (ih h)
    · simp only [derase, if_neg hk, List.mem_cons] at h
      rcases h with h | h
      · exact h ▸ List.mem_cons_self _ _
      · exact List.mem_cons_of_mem _ (ih h)

theorem needUpdate_derase (fs : Str → Option Nat) (st : RefState) (name : Str)
    (h : _NeedUpdate fs st = false) :
    _NeedUpdate fs (refsDeleted st name) = false := by
  simp only [_NeedUpdate, List.any_eq_false] at h ⊢
  intro p hp
  exact h p (mem_of_mem_derase hp)

/-- C9: on a loaded cache with no tracked file's mtime changed, `deleted`
purges the name from the physical, symbolic and mtime tables without
triggering a reload: a subsequent `get` and `symref` on that name return
the empty string (whatever a reload would have produced), and every other
entry of the three tables is untouched. -/
theorem C9_deleted_purges (fs : Str → Option Nat) (st : RefState)
    (name : Str) (reload : RefState) (h : _NeedUpdate fs st = false) :
    _EnsureLoaded fs reload (refsDeleted st name) = refsDeleted st name ∧
    refsGetE fs reload (refsDeleted st name) name = [] ∧
    refsSymrefE fs reload (refsDeleted st name) name = [] ∧
    dlookup (refsDeleted st name).mtime name = none ∧
    (∀ m, m ≠ name →
      dlookup (refsDeleted st name).phyref m = dlookup st.phyref m ∧
      dlookup (refsDeleted st name).symref m = dlookup st.symref m ∧
      dlookup (refsDeleted st name).mtime m = dlookup st.mtime m) := by
  have hnu := needUpdate_derase fs st name h
  have hens : _EnsureLoaded fs reload (refsDeleted st name) =
      refsDeleted st name := by
    simp [_EnsureLoaded, hnu]
  refine ⟨hens, ?_, ?_, ?_, fun m hm => ⟨?_, ?_, ?_⟩⟩
  · simp only [refsGetE]
    rw [hens]
    simp [refsGet, refsDeleted, dlookup_derase_self]
  · simp only [refsSymrefE]
    rw [hens]
    simp [refsDeleted, dlookup_derase_self]
  · simp [refsDeleted, dlookup_derase_self]
  · simp [refsDeleted, dlookup_derase_ne _ _ _ hm]
  · simp [refsDeleted, dlookup_derase_ne _ _ _ hm]
  · simp [refsDeleted, dlookup_derase_ne _ _ _ hm]

/-- Witness for C9: deleting `refs/heads/x` from a two-entry loaded cache
empties its lookups and leaves `refs/heads/y` intact. -/
theorem C9_deleted_purges_witness :
    _NeedUpdate (fun _ => some 3)
      ⟨[("refs/heads/x".toList, "aa".toList),
        ("refs/heads/y".toList, "bb".toList)],
       [(HEAD, "refs/heads/x".toList)],
       [("refs/heads/x".toList, 3), ("refs/heads/y".toList, 3)]⟩ = false ∧
    refsGetE (fun _ => some 3) ⟨[], [], []⟩
      (refsDeleted
        ⟨[("refs/heads/x".toList, "aa".toList),
          ("refs/heads/y".toList, "bb".toList)],
         [(HEAD, "refs/heads/x".toList)],
         [("refs/heads/x".toList, 3), ("refs/heads/y".toList, 3)]⟩
        "refs/heads/x".toList) "refs/heads/x".toList = [] ∧
    dlookup
      (refsDeleted
        ⟨[("refs/heads/x".toList, "aa".toList),
          ("refs/heads/y".toList, "bb".toList)],
         [(HEAD, "refs/heads/x".toList)],
         [("refs/heads/x".toList, 3), ("refs/heads/y".toList, 3)]⟩
        "refs/heads/x".toList).phyref "refs/heads/y".toList =
      some "bb".toList :=
  ⟨by decide,
   ((C9_deleted_purges (fun _ => some 3)
      ⟨[("refs/heads/x".toList, "aa".toList),
        ("refs/heads/y".toList, "bb".toList)],
       [(HEAD, "refs/heads/x".toList)],
       [("refs/heads/x".toList, 3), ("refs/heads/y".toList, 3)]⟩
      "refs/heads/x".toList ⟨[], [], []⟩ (by decide)).2.1),
   by decide⟩

/-- C10: `SetString` is idempotent: when the cached value list for the
normalized key already equals the requested value (same single value,
equal multi-value list, or deletion of an absent key), no `git config`
subprocess is invoked and the cache is returned unchanged. -/
theorem C10_SetString_idempotent (cache : List (Str × List Str)) (name : Str)
    (value : PyVal)
    (h : sameAsCache ((dlookup cache (_key name)).getD []) value) :
    SetString cache name value = (cache, []) := by
  cases value with
  | vnone =>
    simp only [sameAsCache] at h
    simp [SetString, h]
  | vstr v =>
    simp only [sameAsCache] at h
    simp [SetString, h]
  | vlist l =>
    simp only [sameAsCache] at h
    match l, h with
    | [], h => simp [SetString, h]
    | [v], h => simp [SetString, h]
    | v₁ :: v₂ :: vs, h => simp [SetString, h]

/-- Witness for C10: re-setting `User.Name` (normalized key `user.name`)
to its cached value `alice` issues no command and keeps the cache. -/
theorem C10_SetString_idempotent_witness :
    sameAsCache
      ((dlookup [("user.name".toList, ["alice".toList])]
        (_key "User.Name".toList)).getD []) (PyVal.vstr "alice".toList) ∧
    SetString [("user.name".toList, ["alice".toList])] "User.Name".toList
      (PyVal.vstr "alice".toList) =
      ([("user.name".toList, ["alice".toList])], []) :=
  ⟨by simp only [sameAsCache]; decide,
   C10_SetString_idempotent [("user.name".toList, ["alice".toList])]
     "User.Name".toList (PyVal.vstr "alice".toList)
     (by simp only [sameAsCache]; decide)⟩

theorem dkeys_cons {β : Type} (p : Str × β) (l : List (Str × β)) :
    dkeys (p :: l) = p.1 :: dkeys l := rfl

theorem dlookup_some_mem_keys {β : Type} {l : List (Str × β)} {n : Str}
    {d : β} (h : dlookup l n = some d) : n ∈ dkeys l := by
  induction l with
  | nil => simp [dlookup] at h
  | cons hd rest ih =>
    obtain ⟨k, v⟩ := hd
    rw [dkeys_cons, List.mem_cons]
    by_cases hk : n = k
    · exact Or.inl hk
    · simp only [dlookup, if_neg hk] at h
      exact Or.inr (ih h)

theorem dlookup_none_of_notin {β : Type} {l : List (Str × β)} {n : Str}
    (h : n ∉ dkeys l) : dlookup l n = none := by
  induction l with
  | nil => rfl
  | cons hd rest ih =>
    obtain ⟨k, v⟩ := hd
    rw [dkeys_cons, List.mem_cons, not_or] at h
    simp only [dlookup, if_neg h.1]
    exact ih h.2

theorem mem_dkeys_dinsert {β : Type} {l : List (Str × β)} {k n : Str}
    {v : β} (h : n ∈ dkeys (dinsert l k v)) : n ∈ dkeys l ∨ n = k := by
  induction l with
  | nil =>
    rw [show dinsert ([] : List (Str × β)) k v = [(k, v)] from rfl,
        dkeys_cons, List.mem_cons] at h
    rcases h with h | h
    · exact Or.inr h
    · simp [dkeys] at h
  | cons hd rest ih =>
    obtain ⟨k', w⟩ := hd
    by_cases hk : k' = k
    · rw [show dinsert ((k', w) :: rest) k v = (k', v) :: rest from by
          simp [dinsert, hk], dkeys_cons, List.mem_cons] at h
      rcases h with h | h
      · exact Or.inr (h.trans hk)
      · exact Or.inl (by rw [dkeys_cons, List.mem_cons]; exact Or.inr h)
    · rw [show dinsert ((k', w) :: rest) k v = (k', w) :: dinsert rest k v from
          by simp [dinsert, hk], dkeys_cons, List.mem_cons] at h
      rcases h with h | h
      · exact Or.inl (by rw [dkeys_cons, List.mem_cons]; exact Or.inl h)
      · rcases ih h with h' | h'
        · exact Or.inl (by rw [dkeys_cons, List.mem_cons]; exact Or.inr h')
        · exact Or.inr h'

theorem nodupKeys_dinsert {β : Type} (l : List (Str × β)) (k : Str) (v : β)
    (h : (dkeys l).Nodup) : (dkeys (dinsert l k v)).Nodup := by
  induction l with
  | nil => simp [dinsert, dkeys]
  | cons hd rest ih =>
    obtain ⟨k', w⟩ := hd
    rw [dkeys_cons, List.nodup_cons] at h
    by_cases hk : k' = k
    · rw [show dinsert ((k', w) :: rest) k v = (k', v) :: rest from by
          simp [dinsert, hk], dkeys_cons, List.nodup_cons]
      exact h
    · rw [show dinsert ((k', w) :: rest) k v = (k', w) :: dinsert rest k v from
          by simp [dinsert, hk], dkeys_cons, List.nodup_cons]
      refine ⟨fun hmem => ?_, ih h.2⟩
      rcases mem_dkeys_dinsert hmem with h' | h'
      · exact h.1 h'
      · exact hk h'

theorem onePass_mono (scan phy : List (Str × Str)) (n : Str)
    (h : (dlookup phy n).isSome) : (dlookup (onePass scan phy).1 n).isSome := by
  induction scan generalizing phy with
  | nil => exact h
  | cons hd rest ih =>
    obtain ⟨m, e⟩ := hd
    simp only [onePass]
    cases hde : dlookup phy e with
    | some i => exact ih (dinsert phy m i) (isSome_dlookup_dinsert _ _ _ _ h)
    | none => exact ih phy h

theorem onePass_resolves (scan phy : List (Str × Str)) (n d : Str)
    (hs : dlookup scan n = some d) (hd : (dlookup phy d).isSome) :
    (dlookup (onePass scan phy).1 n).isSome := by
  induction scan generalizing phy with
  | nil => simp [dlookup] at hs
  | cons hd' rest ih =>
    obtain ⟨m, e⟩ := hd'
    simp only [onePass]
    by_cases hm : n = m
    · subst hm
      have hs' : e = d := by simpa [dlookup] using hs
      subst hs'
      obtain ⟨i, hi⟩ := Option.isSome_iff_exists.mp hd
      rw [hi]
      exact onePass_mono rest _ n
        (by rw [dlookup_dinsert_self]; exact Option.isSome_some)
    · simp only [dlookup, if_neg hm] at hs
      cases hde : dlookup phy e with
      | some i =>
        exact ih (dinsert phy m i) hs (isSome_dlookup_dinsert _ _ _ _ hd)
      | none => exact ih phy hs hd

theorem onePass_carryOrResolve (scan phy : List (Str × Str)) (n d : Str)
    (hs : dlookup scan n = some d) :
    (dlookup (onePass scan phy).1 n).isSome ∨
      dlookup (onePass scan phy).2 n = some d := by
  induction scan generalizing phy with
  | nil => simp [dlookup] at hs
  | cons hd' rest ih =>
    obtain ⟨m, e⟩ := hd'
    simp only [onePass]
    by_cases hm : n = m
    · subst hm
      have hs' : e = d := by simpa [dlookup] using hs
      subst hs'
      cases hde : dlookup phy e with
      | some i =>
        exact Or.inl (onePass_mono rest _ n
          (by rw [dlookup_dinsert_self]; exact Option.isSome_some))
      | none => exact Or.inr (by simp [dlookup])
    · simp only [dlookup, if_neg hm] at hs
      cases hde : dlookup phy e with
      | some i => exact ih (dinsert phy m i) hs
      | none =>
        rcases ih phy hs with h | h
        · exact Or.inl h
        · exact Or.inr (by simp [dlookup, if_neg hm, h])

theorem onePass_scan_sublist (scan phy : List (Str × Str)) :
    List.Sublist (onePass scan phy).2 scan := by
  induction scan generalizing phy with
  | nil => simp [onePass]
  | cons hd rest ih =>
    obtain ⟨m, e⟩ := hd
    simp only [onePass]
    cases hde : dlookup phy e with
    | some i => exact (ih (dinsert phy m i)).cons _
    | none => exact (ih phy).cons₂ _

theorem onePass_notouch (scan phy : List (Str × Str)) (n : Str)
    (h : dlookup scan n = none) :
    dlookup (onePass scan phy).1 n = dlookup phy n := by
  induction scan generalizing phy with
  | nil => rfl
  | cons hd rest ih =>
    obtain ⟨m, e⟩ := hd
    have hm : n ≠ m := by
      intro hmm
      simp [dlookup, hmm] at h
    simp only [dlookup, if_neg hm] at h
    simp only [onePass]
    cases hde : dlookup phy e with
    | some i => rw [ih (dinsert phy m i) h, dlookup_dinsert_ne _ _ _ _ hm]
    | none => exact ih phy h

theorem onePass_carried_unchanged (scan phy : List (Str × Str)) (n d : Str)
    (hnd : (dkeys scan).Nodup)
    (h : dlookup (onePass scan phy).2 n = some d) :
    dlookup (onePass scan phy).1 n = dlookup phy n ∧
      dlookup scan n = some d := by
  induction scan generalizing phy with
  | nil => simp [onePass, dlookup] at h
  | cons hd' rest ih =>
    obtain ⟨m, e⟩ := hd'
    rw [dkeys_cons, List.nodup_cons] at hnd
    simp only [onePass] at h ⊢
    cases hde : dlookup phy e with
    | some i =>
      rw [hde] at h
      obtain ⟨h1, h2⟩ := ih (dinsert phy m i) hnd.2 h
      have hnm : n ≠ m := by
        intro hmm
        subst hmm
        exact hnd.1 (dlookup_some_mem_keys h2)
      refine ⟨?_, by simp [dlookup, if_neg hnm, h2]⟩
      rw [h1, dlookup_dinsert_ne _ _ _ _ hnm]
    | none =>
      rw [hde] at h
      by_cases hm : n = m
      · subst hm
        have hd' : e = d := by simpa [dlookup] using h
        subst hd'
        refine ⟨?_, by simp [dlookup]⟩
        exact onePass_notouch rest phy n (dlookup_none_of_notin hnd.1)
      · simp only [dlookup, if_neg hm] at h ⊢
        exact ih phy hnd.2 h

theorem resolveLoop_mono (fuel : Nat) (scan phy : List (Str × Str)) (n : Str)
    (h : (dlookup phy n).isSome) :
    (dlookup (resolveLoop fuel scan phy).1 n).isSome := by
  induction fuel generalizing scan phy with
  | zero => exact h
  | succ f ih =>
    simp only [resolveLoop]
    by_cases hsc : scan = []
    · rw [if_pos hsc]
      exact h
    · rw [if_neg hsc]
      exact ih _ _ (onePass_mono scan phy n h)

theorem resolveLoop_carried_unchanged (fuel : Nat)
    (scan phy : List (Str × Str)) (n d : Str) (hnd : (dkeys scan).Nodup)
    (h : dlookup (resolveLoop fuel scan phy).2 n = some d) :
    dlookup (resolveLoop fuel scan phy).1 n = dlookup phy n ∧
      dlookup scan n = some d := by
  induction fuel generalizing scan phy with
  | zero => exact ⟨rfl, h⟩
  | succ f ih =>
    simp only [resolveLoop] at h ⊢
    by_cases hsc : scan = []
    · rw [if_pos hsc] at h ⊢
      exact ⟨rfl, h⟩
    · rw [if_neg hsc] at h ⊢
      have hnd' : (dkeys (onePass scan phy).2).Nodup := by
        have hsub : List.Sublist (dkeys (onePass scan phy).2) (dkeys scan) :=
          (onePass_scan_sublist scan phy).map Prod.fst
        exact hnd.sublist hsub
      obtain ⟨h1, h2⟩ := ih _ _ hnd' h
      obtain ⟨h3, h4⟩ := onePass_carried_unchanged scan phy n d hnd h2
      exact ⟨h1.trans h3, h4⟩

theorem chain_isSome_of_zero {sym phy : List (Str × Str)} {n : Str}
    (h : Chain sym phy n 0) : (dlookup phy n).isSome := by
  cases h with
  | zero _ i hi => rw [hi]; exact Option.isSome_some

theorem chain_of_isSome {sym phy : List (Str × Str)} {n : Str}
    (h : (dlookup phy n).isSome) : Chain sym phy n 0 := by
  obtain ⟨i, hi⟩ := Option.isSome_iff_exists.mp h
  exact Chain.zero n i hi

theorem chain_step (sym scan phy : List (Str × Str))
    (hinv : ∀ n d, dlookup sym n = some d →
      (dlookup phy n).isSome ∨ dlookup scan n = some d) :
    ∀ (k : Nat) (n : Str), Chain sym phy n (k + 1) →
      Chain sym (onePass scan phy).1 n k := by
  intro k
  induction k with
  | zero =>
    intro n hc
    cases hc with
    | succ _ d _ hs hd =>
      rcases hinv n d hs with h | h
      · exact chain_of_isSome (onePass_mono scan phy n h)
      · exact chain_of_isSome
          (onePass_resolves scan phy n d h (chain_isSome_of_zero hd))
  | succ j ih =>
    intro n hc
    cases hc with
    | succ _ d _ hs hd => exact Chain.succ n d j hs (ih d hd)

theorem onePass_inv (sym scan phy : List (Str × Str))
    (hinv : ∀ n d, dlookup sym n = some d →
      (dlookup phy n).isSome ∨ dlookup scan n = some d) :
    ∀ n d, dlookup sym n = some d →
      (dlookup (onePass scan phy).1 n).isSome ∨
        dlookup (onePass scan phy).2 n = some d := by
  intro n d hs
  rcases hinv n d hs with h | h
  · exact Or.inl (onePass_mono scan phy n h)
  · exact onePass_carryOrResolve scan phy n d h

theorem resolveLoop_resolves (sym : List (Str × Str)) (fuel : Nat) :
    ∀ (scan phy : List (Str × Str)),
      (∀ n d, dlookup sym n = some d →
        (dlookup phy n).isSome ∨ dlookup scan n = some d) →
      ∀ (n : Str) (k : Nat), k ≤ fuel → Chain sym phy n k →
        (dlookup (resolveLoop fuel scan phy).1 n).isSome := by
  induction fuel with
  | zero =>
    intro scan phy _ n k hk hc
    interval_cases k
    exact chain_isSome_of_zero hc
  | succ f ih =>
    intro scan phy hinv n k hk hc
    simp only [resolveLoop]
    by_cases hsc : scan = []
    · rw [if_pos hsc]
      cases hc with
      | zero _ i hi => rw [hi]; exact Option.isSome_some
      | succ _ d _ hs hd =>
        rcases hinv n d hs with h | h
        · exact h
        · rw [hsc] at h
          simp [dlookup] at h
    · rw [if_neg hsc]
      cases k with
      | zero =>
        exact ih _ _ (onePass_inv sym scan phy hinv) n 0 (Nat.zero_le f)
          (chain_of_isSome (onePass_mono scan phy n (chain_isSome_of_zero hc)))
      | succ j =>
        exact ih _ _ (onePass_inv sym scan phy hinv) n j
          (Nat.lt_succ_iff.mp hk) (chain_step sym scan phy hinv j n hc)

theorem readPackedLine_symref (st : RefState) (line : Str) :
    (readPackedLine st line).symref = st.symref := by
  cases line with
  | nil => rfl
  | cons c cs =>
    simp only [readPackedLine]
    by_cases h : c = '#' ∨ c = '^'
    · rw [if_pos h]
    · rw [if_neg h]
      cases pySplit ' ' ((c :: cs).dropLast) with
      | nil => rfl
      | cons a t =>
        cases t with
        | nil => rfl
        | cons b t2 => rfl

theorem readPackedRefs_symref (st : RefState) (lines : List Str) (m : Nat) :
    (readPackedRefs st lines m).symref = st.symref := by
  suffices h : ∀ st : RefState, (lines.foldl readPackedLine st).symref = st.symref by
    simpa [readPackedRefs] using h st
  induction lines with
  | nil => intro st; rfl
  | cons l ls ih =>
    intro st
    rw [List.foldl_cons, ih, readPackedLine_symref]

theorem readLoose1_symref_nodup (st : RefState) (n l : Str) (m : Nat)
    (h : (dkeys st.symref).Nodup) :
    (dkeys (readLoose1 st n l m).symref).Nodup := by
  unfold readLoose1
  by_cases hl : l = []
  · rwa [if_pos hl]
  · rw [if_neg hl]
    by_cases hr : refColon <+: l.dropLast
    · rw [if_pos hr]
      exact nodupKeys_dinsert _ _ _ h
    · rw [if_neg hr]
      exact h

theorem loadRaw_symref_nodup (inp : RefsInput) :
    (dkeys (_LoadRaw inp).symref).Nodup := by
  have hfold : ∀ (xs : List (Str × Str × Nat)) (st : RefState),
      (dkeys st.symref).Nodup →
      (dkeys (xs.foldl (fun st e => readLoose1 st e.1 e.2.1 e.2.2) st).symref).Nodup := by
    intro xs
    induction xs with
    | nil =>
      intro st h
      exact h
    | cons e es ih =>
      intro st h
      rw [List.foldl_cons]
      exact ih _ (readLoose1_symref_nodup _ _ _ _ h)
  show (dkeys (readLoose1
      (inp.loose.foldl (fun st e => readLoose1 st e.1 e.2.1 e.2.2)
        (readPackedRefs ⟨[], [], []⟩ inp.packedLines inp.packedM))
      HEAD inp.headLine inp.headM).symref).Nodup
  apply readLoose1_symref_nodup
  apply hfold
  rw [readPackedRefs_symref]
  exact List.nodup_nil

/-- Claim C8's "unresolved symbolic refs are never exposed as physical, and
get returns the empty string on them" part is false: when packed-refs
lists `refs/heads/x` and a loose `refs/heads/x` is a symref to the
nonexistent `refs/heads/y`, the name stays unresolved in the scan after 5
passes, yet `get` returns the packed commit id, not the empty string. -/
theorem C8_unresolved_counterexample :
    dlookup (loadScan
      ⟨["aaaaaaaaaaaaaaaaaaaaaaaaaaaaaaaaaaaaaaaa refs/heads/x\n".toList], 1,
       [("refs/heads/x".toList, "ref: refs/heads/y\n".toList, 2)], [], 3⟩)
      "refs/heads/x".toList = some "refs/heads/y".toList ∧
    refsGet (_LoadAll
      ⟨["aaaaaaaaaaaaaaaaaaaaaaaaaaaaaaaaaaaaaaaa refs/heads/x\n".toList], 1,
       [("refs/heads/x".toList, "ref: refs/heads/y\n".toList, 2)], [], 3⟩)
      "refs/heads/x".toList =
      "aaaaaaaaaaaaaaaaaaaaaaaaaaaaaaaaaaaaaaaa".toList ∧
    ("aaaaaaaaaaaaaaaaaaaaaaaaaaaaaaaaaaaaaaaa".toList : Str) ≠ [] := by
  decide

/-- C8 (amended): after every load, (a) every symbolic chain of indirection
depth at most 5 (over the tables as read) ending at a physical entry gets
a resolved commit id within the 5 passes; (b) a symbolic ref still
unresolved when the passes end keeps exactly the physical entry the reads
gave it — so `get` on it returns the empty string UNLESS the reads
themselves already gave that very name a physical entry (a packed ref
shadowed by a loose symref), in which case that id is exposed. -/
theorem C8_symref_resolution (inp : RefsInput) :
    (∀ n k, k ≤ 5 →
      Chain (_LoadRaw inp).symref (_LoadRaw inp).phyref n k →
      (dlookup (_LoadAll inp).phyref n).isSome) ∧
    (∀ n d, dlookup (loadScan inp) n = some d →
      dlookup (_LoadAll inp).phyref n = dlookup (_LoadRaw inp).phyref n ∧
      dlookup (_LoadRaw inp).symref n = some d) := by
  constructor
  · intro n k hk hc
    have h := resolveLoop_resolves (_LoadRaw inp).symref 5
      (_LoadRaw inp).symref (_LoadRaw inp).phyref
      (fun _ _ hd => Or.inr hd) n k hk hc
    simpa [_LoadAll] using h
  · intro n d hd
    have hnd := loadRaw_symref_nodup inp
    simp only [loadScan] at hd
    have h := resolveLoop_carried_unchanged 5 (_LoadRaw inp).symref
      (_LoadRaw inp).phyref n d hnd hd
    exact ⟨by simpa [_LoadAll] using h.1, h.2⟩

/-- Witness for C8: loading a repository whose HEAD is a symref to the
packed `refs/heads/stable` resolves HEAD to a physical entry. -/
theorem C8_symref_resolution_witness :
    (1 ≤ 5 ∧
      Chain
        (_LoadRaw ⟨["aaaaaaaaaaaaaaaaaaaaaaaaaaaaaaaaaaaaaaaa refs/heads/stable\n".toList],
          1, [], "ref: refs/heads/stable\n".toList, 2⟩).symref
        (_LoadRaw ⟨["aaaaaaaaaaaaaaaaaaaaaaaaaaaaaaaaaaaaaaaa refs/heads/stable\n".toList],
          1, [], "ref: refs/heads/stable\n".toList, 2⟩).phyref
        HEAD 1) ∧
    (dlookup (_LoadAll ⟨["aaaaaaaaaaaaaaaaaaaaaaaaaaaaaaaaaaaaaaaa refs/heads/stable\n".toList],
        1, [], "ref: refs/heads/stable\n".toList, 2⟩).phyref HEAD).isSome :=
  ⟨⟨by decide,
    Chain.succ HEAD "refs/heads/stable".toList 0 (by decide)
      (Chain.zero "refs/heads/stable".toList
        "aaaaaaaaaaaaaaaaaaaaaaaaaaaaaaaaaaaaaaaa".toList (by decide))⟩,
   (C8_symref_resolution
      ⟨["aaaaaaaaaaaaaaaaaaaaaaaaaaaaaaaaaaaaaaaa refs/heads/stable\n".toList],
        1, [], "ref: refs/heads/stable\n".toList, 2⟩).1 HEAD 1 (by decide)
     (Chain.succ HEAD "refs/heads/stable".toList 0 (by decide)
       (Chain.zero "refs/heads/stable".toList
         "aaaaaaaaaaaaaaaaaaaaaaaaaaaaaaaaaaaaaaaa".toList (by decide)))⟩
